import Mathlib

/-!
Verification development for the BananaMD generation-orchestration core.

The definitions below are a shallow embedding of the TypeScript source:
strings are modelled as `List Char` (`Str`), JS objects as structures,
`Record<string, T>` as association lists, and the fallible external calls
as explicit outcome parameters.  Each definition names the source function
it embeds.
-/

namespace BananaMD

abbrev Str := List Char

/-- Truthiness of a nullable JS string: `undefined`/`null` and `''` are falsy. -/
def jsTruthy (s : Option Str) : Bool :=
  match s with
  | none => false
  | some l => !l.isEmpty

def isRetryableMessage (msg : Str) : Bool :=
  decide ("429".data <:+: msg) || decide ("RESOURCE_EXHAUSTED".data <:+: msg)

def retryFallbackMessage : Str :=
  "Failed to generate content after all retries.".data

structure RetryOutcome (α : Type) where
  result : Except Str α
  attempts : Nat
deriving Repr

def retryLoop (op : Nat → Except Str α) (lastError : Option Str) (i : Nat) :
    Nat → RetryOutcome α
  | 0 => ⟨.error (lastError.getD retryFallbackMessage), 0⟩
  | remaining + 1 =>
    match op i with
    | .ok v => ⟨.ok v, 1⟩
    | .error e =>
      if isRetryableMessage e then
        let out := retryLoop op (some e) (i + 1) remaining
        ⟨out.result, out.attempts + 1⟩
      else
        ⟨.error e, 1⟩

def generateContentWithRetry (op : Nat → Except Str α) (retries : Nat := 5) :
    RetryOutcome α :=
  retryLoop op none 0 retries

def opWitness : Nat → Except Str Nat := fun i =>
  if i < 2 then .error "HTTP 429: slow down".data else .ok 7

def opWitnessFatal : Nat → Except Str Nat := fun _ =>
  .error "permission denied".data

/-! ## Version history (`ImageHistory` in components/ImageReferenceItem.tsx,
operated on by `handleEditInstruction` / `handleNavigateHistory` in the App) -/

structure ImageVersionNode where
  id : Str
  imageData : Str
  parentId : Option Str
  childrenIds : List Str
  createdAt : Nat
  instruction : Option Str := none
deriving Repr, DecidableEq

structure ImageHistory where
  nodes : List (Str × ImageVersionNode)
  rootId : Str
  currentId : Str
  order : List Str
  isEditing : Bool := false
  error : Option Str := none
deriving Repr, DecidableEq

/-- Lookup in a JS `Record<string, ImageVersionNode>` modelled as an
association list. -/
def recordGet (m : List (Str × ImageVersionNode)) (k : Str) : Option ImageVersionNode :=
  (m.find? (fun p => decide (p.1 = k))).map (·.2)

/-- Assignment `m[k] = v` on a JS record: overwrite in place or append. -/
def recordSet (m : List (Str × ImageVersionNode)) (k : Str) (v : ImageVersionNode) :
    List (Str × ImageVersionNode) :=
  if m.any (fun p => decide (p.1 = k)) then
    m.map (fun p => if p.1 = k then (k, v) else p)
  else m ++ [(k, v)]

/-- `createInitialHistory(img)` / the inline history initialisers: a fresh
single-node tree.  `id` stands for the generated `Date.now()+random` id and
`now` for `Date.now()`. -/
def initializeHistory (img : Str) (id : Str) (now : Nat) : ImageHistory :=
  { nodes := [(id, { id := id, imageData := img, parentId := none,
                     childrenIds := [], createdAt := now })],
    rootId := id, currentId := id, order := [id] }

/-- `createInitialHistory` / `initHistory`: `if (!img) return null`. -/
def createInitialHistory (img : Option Str) (id : Str) (now : Nat) :
    Option ImageHistory :=
  match img with
  | none => none
  | some im => if im.isEmpty then none else some (initializeHistory im id now)

inductive NavDirection
  | prev
  | next
deriving Repr, DecidableEq

/-- `handleNavigateHistory` restricted to one slot's history: move the cursor
within `order`, a no-op past either end. -/
def jsIndexOf (a : Str) (l : List Str) : Nat :=
  @List.indexOf Str instBEqOfDecidableEq a l

def handleNavigateHistorySlot (h : ImageHistory) (direction : NavDirection) :
    ImageHistory :=
  if h.currentId ∈ h.order then
    let idx := jsIndexOf h.currentId h.order
    match direction with
    | .prev =>
      if 0 < idx then { h with currentId := h.order.getD (idx - 1) h.currentId } else h
    | .next =>
      if idx < h.order.length - 1 then
        { h with currentId := h.order.getD (idx + 1) h.currentId }
      else h
  else h

/-- The validation applied to every returned image payload
(`normalizeImage` in the App): a `data:image/...;base64,` envelope of at
least 200 characters, case-insensitively. -/
def isImageDataUrlPrefix (s : Str) : Bool :=
  ["png", "jpeg", "jpg", "webp", "gif"].any fun ext =>
    ("data:image/".data ++ ext.data ++ ";base64,".data).isPrefixOf (s.map Char.toLower)

def normalizeImage (img : Option Str) : Option Str :=
  match img with
  | none => none
  | some s =>
    if s.isEmpty then none
    else if !isImageDataUrlPrefix s then none
    else if s.length < 200 then none
    else some s

/-- Outcome of the awaited `generateEditedImage` call inside
`handleEditInstruction`'s `try` block. -/
inductive EditCallOutcome
  | success (raw : Option Str)
  | failure (msg : Option Str)
deriving Repr, DecidableEq

/-- `handleEditInstruction` restricted to one slot's history: mark editing,
then on success append a child of the current node to `nodes` and `order`
and move the cursor to it; on failure record only the error message. -/
def handleEditInstructionSlot (h : ImageHistory) (outcome : EditCallOutcome)
    (newId : Str) (instr : Str) (now : Nat) : ImageHistory :=
  let h1 : ImageHistory := { h with isEditing := true, error := some [] }
  match outcome with
  | .failure msg =>
    { h1 with error := some (msg.getD "Edit failed".data), isEditing := false }
  | .success raw =>
    match recordGet h1.nodes h1.currentId with
    | none =>
      -- the JS dereference `history.nodes[history.currentId].imageData` throws
      -- and the resulting error is caught by the same catch block
      { h1 with error := some "Edit failed".data, isEditing := false }
    | some currentNode =>
      let editedImage := (normalizeImage raw).getD currentNode.imageData
      let newNode : ImageVersionNode :=
        { id := newId, imageData := editedImage, parentId := some currentNode.id,
          childrenIds := [], createdAt := now, instruction := some instr }
      let nodes1 := recordSet h1.nodes currentNode.id
        { currentNode with childrenIds := currentNode.childrenIds ++ [newId] }
      { h1 with nodes := recordSet nodes1 newId newNode,
                order := h1.order ++ [newId], currentId := newId,
                isEditing := false }

/-- A run of sequential edit submissions, each succeeding with the given raw
payload: `(newId, raw, instruction)` per call. -/
def appendRun (h : ImageHistory) (edits : List (Str × Str × Str)) (now : Nat) :
    ImageHistory :=
  edits.foldl
    (fun acc e => handleEditInstructionSlot acc (.success (some e.2.1)) e.1 e.2.2 now) h

/-- Iterated `prev` navigation. -/
def navigateIter (h : ImageHistory) : Nat → ImageHistory
  | 0 => h
  | k + 1 => navigateIter (handleNavigateHistorySlot h .prev) k

def editsW : List (Str × Str × Str) :=
  [("a".data, "x".data, "e1".data), ("b".data, "y".data, "e2".data)]

def histW : ImageHistory := initializeHistory "z".data "r".data 0

/-! ## Candidate validation and storage (`triggerGenerationForIndex`, to-generate
branch of the App's generation effect) -/

/-- The joined result of the two concurrent candidate generations for one
placeholder, as stored by `setImageReferences` at the end of the branch. -/
structure GenerationResult where
  generatedImages : Option Str × Option Str
  histories : Option ImageHistory × Option ImageHistory
deriving Repr, DecidableEq

/-- End of the to-generate branch: each raw payload (`null` on a failed
generation) is validated by `normalizeImage`; both the image pair and the
initial histories are stored.  `id1`/`id2` stand for the generated node ids. -/
def finalizeCandidates (rawImage1 rawImage2 : Option Str) (id1 id2 : Str)
    (now : Nat) : GenerationResult :=
  let image1 := normalizeImage rawImage1
  let image2 := normalizeImage rawImage2
  { generatedImages := (image1, image2),
    histories := (createInitialHistory image1 id1 now,
                  createInitialHistory image2 id2 now) }

/-- A concrete well-formed candidate payload of length 202. -/
def validImgW : Str := "data:image/png;base64,".data ++ List.replicate 180 'a'

/-! ## Selection state and the export gate (`allImagesSelected` and the
auto-export effect in the App) -/

inductive RefStatus
  | existing
  | toGenerate
deriving Repr, DecidableEq

/-- The slice of an `ImageReference`'s runtime state read by
`allImagesSelected` and the selection handlers. -/
structure ImageReferenceState where
  status : RefStatus
  selectedIndex : Option Nat := none
  histories : Option (Option ImageHistory × Option ImageHistory) := none
  generatedImages : Option (Option Str × Option Str) := none
  generatedImproved : Option Str := none
  generatedVariation : Option Str := none
  originalImage : Option Str := none
deriving Repr, DecidableEq

/-- `ref.histories?.[idx] || null`: index the optional two-slot tuple with an
arbitrary JS index. -/
def indexPairHist (p : Option (Option ImageHistory × Option ImageHistory))
    (idx : Nat) : Option ImageHistory :=
  match p with
  | none => none
  | some (a, b) => if idx = 0 then a else if idx = 1 then b else none

/-- `ref.generatedImages?.[idx] || null`. -/
def indexPairImg (p : Option (Option Str × Option Str)) (idx : Nat) : Option Str :=
  match p with
  | none => none
  | some (a, b) => if idx = 0 then a else if idx = 1 then b else none

/-- `hist.nodes[hist.currentId].imageData` (a missing id would throw in JS;
modelled as `none`, which is falsy like the throw path is unreachable). -/
def historyCurrentImage (h : ImageHistory) : Option Str :=
  (recordGet h.nodes h.currentId).map (·.imageData)

/-- The per-placeholder image resolution inside `allImagesSelected`: the chosen
slot's history current node if a history exists, else the generated image for
that slot. -/
def selectedImageFor (ref : ImageReferenceState) (idx : Nat) : Option Str :=
  match ref.status with
  | .toGenerate =>
    match indexPairHist ref.histories idx with
    | some h => historyCurrentImage h
    | none => indexPairImg ref.generatedImages idx
  | .existing =>
    if idx = 0 then
      match indexPairHist ref.histories 0 with
      | some h => historyCurrentImage h
      | none => ref.generatedImproved
    else
      match indexPairHist ref.histories 1 with
      | some h => historyCurrentImage h
      | none => ref.generatedVariation

/-- `allImagesSelected`: false on an empty list, else every reference must
have a set `selectedIndex` whose resolved image is truthy. -/
def allImagesSelected (refs : List ImageReferenceState) : Bool :=
  if refs.isEmpty then false
  else refs.all fun ref =>
    match ref.selectedIndex with
    | none => false
    | some idx => jsTruthy (selectedImageFor ref idx)

/-- The auto-export effect guard: `allImagesSelected && !exportTriggered.current
&& !exporting && !zipUrl`; `handleBuildExports` is invoked exactly when this
holds (and it is the only call site of `handleBuildExports`). -/
def shouldAutoExport (refs : List ImageReferenceState)
    (exportTriggered exporting : Bool) (zipUrl : Option Str) : Bool :=
  allImagesSelected refs && !exportTriggered && !exporting && !(jsTruthy zipUrl)

/-- A concrete fully selected placeholder. -/
def refW : ImageReferenceState :=
  { status := .toGenerate, selectedIndex := some 0,
    generatedImages := some (some "img-a".data, some "img-b".data) }

/-! ## Placeholder extractor (`parseAndFindReferences` in the App) -/

/-- The ASCII portion of the JS `\s` character class. -/
def isJsWs (c : Char) : Bool :=
  c = ' ' || c = '\t' || c = '\n' || c = '\r' || c = '\x0b' || c = '\x0c'

/-- `.replace(/\\(.)/g, '$1')`: drop a backslash before any non-newline
character (`.` does not match a newline). -/
def unescapeChars : Str → Str
  | '\\' :: c :: rest =>
    if c = '\n' then '\\' :: unescapeChars (c :: rest) else c :: unescapeChars rest
  | c :: rest => c :: unescapeChars rest
  | [] => []

/-- Match of `!\[([^\]]*)\]\((.*?)\)` anchored at the head of `s`: returns the
match length and the two capture groups.  The greedy `[^\]]*` stops at the
first `]`; the lazy `(.*?)` stops at the first `)` and fails on a newline. -/
def mdMatchAt : Str → Option (Nat × Str × Str)
  | '!' :: '[' :: rest =>
    let rawAlt := rest.takeWhile (fun c => decide (c ≠ ']'))
    match rest.dropWhile (fun c => decide (c ≠ ']')) with
    | ']' :: '(' :: rest2 =>
      let rawInner := rest2.takeWhile (fun c => decide (c ≠ ')') && decide (c ≠ '\n'))
      match rest2.dropWhile (fun c => decide (c ≠ ')') && decide (c ≠ '\n')) with
      | ')' :: _ => some (rawAlt.length + rawInner.length + 5, rawAlt, rawInner)
      | _ => none
    | _ => none
  | _ => none

/-- `rawPath.split(/\s+(?=["'])/, 2)[0]`: the prefix before the first
whitespace run that ends immediately before a quote. -/
def wsRunEndsAtQuote (s : Str) : Bool :=
  match s.dropWhile isJsWs with
  | '"' :: _ => true
  | '\'' :: _ => true
  | _ => false

def splitPathHead : Str → Str
  | [] => []
  | c :: rest =>
    if isJsWs c && wsRunEndsAtQuote (c :: rest) then []
    else c :: splitPathHead rest

/-- `.trim()`. -/
def trimWs (s : Str) : Str :=
  ((s.dropWhile isJsWs).reverse.dropWhile isJsWs).reverse

/-- `if (path.startsWith('<') && path.endsWith('>')) path = path.slice(1, -1)`. -/
def stripAngle (s : Str) : Str :=
  if s.head? = some '<' ∧ s.getLast? = some '>' then (s.drop 1).dropLast else s

/-- The whole inline-link path post-processing: title split, trim, angle
brackets, unescape. -/
def processMdPath (rawPath : Str) : Str :=
  unescapeChars (stripAngle (trimWs (splitPathHead rawPath)))

/-- Match of `<img([^>]+)>` (case-insensitive) anchored at the head of `s`:
returns the match length and the attribute string. -/
def htmlMatchAt : Str → Option (Nat × Str)
  | '<' :: c1 :: c2 :: c3 :: rest =>
    if c1.toLower = 'i' ∧ c2.toLower = 'm' ∧ c3.toLower = 'g' then
      let attrs := rest.takeWhile (fun c => decide (c ≠ '>'))
      match rest.dropWhile (fun c => decide (c ≠ '>')) with
      | '>' :: _ => if attrs.isEmpty then none else some (attrs.length + 5, attrs)
      | _ => none
    else none
  | _ => none

/-- Capture groups of `(?:"([^"]*)"|'([^']*)'|([^\s>]+))` (resp. `[^\s>]*`). -/
structure AttrGroups where
  g1 : Option Str
  g2 : Option Str
  g3 : Option Str
deriving Repr, DecidableEq

/-- Match of `\s*=\s*(?:"([^"]*)"|'([^']*)'|([^\s>]+))` (with `[^\s>]*` as the
last alternative when `star` is true) anchored at the head of `s`: consumed
length plus groups.  An unterminated quoted alternative falls back to the
bare alternative, which then starts at the quote character. -/
def attrValueAt (star : Bool) (s : Str) : Option (Nat × AttrGroups) :=
  let ws1 := s.takeWhile isJsWs
  match s.dropWhile isJsWs with
  | '=' :: s2 =>
    let ws2 := s2.takeWhile isJsWs
    let s3 := s2.dropWhile isJsWs
    let pre := ws1.length + 1 + ws2.length
    let bare :=
      let v := s3.takeWhile (fun c => !isJsWs c && decide (c ≠ '>'))
      if v.isEmpty then
        if star then some (pre, ⟨none, none, some []⟩) else none
      else some (pre + v.length, ⟨none, none, some v⟩)
    match s3 with
    | '"' :: r =>
      let v := r.takeWhile (fun c => decide (c ≠ '"'))
      match r.dropWhile (fun c => decide (c ≠ '"')) with
      | '"' :: _ => some (pre + v.length + 2, ⟨some v, none, none⟩)
      | _ => bare
    | '\'' :: r =>
      let v := r.takeWhile (fun c => decide (c ≠ '\''))
      match r.dropWhile (fun c => decide (c ≠ '\'')) with
      | '\'' :: _ => some (pre + v.length + 2, ⟨none, some v, none⟩)
      | _ => bare
    | _ => bare
  | _ => none

/-- Match of `name\s*=\s*(...)` anchored at the head of `s` (case-insensitive
attribute name, given in lowercase). -/
def attrMatchAt (name : Str) (star : Bool) (s : Str) : Option (Nat × AttrGroups) :=
  if (s.take name.length).map Char.toLower = name then
    (attrValueAt star (s.drop name.length)).map fun p => (name.length + p.1, p.2)
  else none

/-- `.match(regex)` without the global flag: leftmost match, as
`(startIndex, length, groups)`. -/
def attrSearch (name : Str) (star : Bool) : Str → Option (Nat × Nat × AttrGroups)
  | [] =>
    match attrMatchAt name star [] with
    | some (len, g) => some (0, len, g)
    | none => none
  | c :: cs =>
    match attrMatchAt name star (c :: cs) with
    | some (len, g) => some (0, len, g)
    | none => (attrSearch name star cs).map fun p => (p.1 + 1, p.2.1, p.2.2)

/-- `g1 || g2 || g3` on capture groups, with both `undefined` and the empty
string falsy; a falsy final result is collapsed to `none`. -/
def groupsToPath (g : AttrGroups) : Option Str :=
  if jsTruthy g.g1 then g.g1
  else if jsTruthy g.g2 then g.g2
  else if jsTruthy g.g3 then g.g3
  else none

/-- The `while ((match = regex.exec(content)) !== null)` loop: leftmost
matches, resuming after each match end.  The scanner advances one character
at a time; `skip` counts positions still inside the previous match (matches
of the regexes used here are never empty).  The payload carries the
matcher's capture data. -/
def scanSkip (f : Str → Option (Nat × γ)) : (s : Str) → Nat → Nat →
    List (Nat × Nat × γ)
  | [], _, _ => []
  | _ :: cs, i, skip + 1 => scanSkip f cs (i + 1) skip
  | c :: cs, i, 0 =>
    match f (c :: cs) with
    | some (len, g) => (i, len, g) :: scanSkip f cs (i + 1) (len - 1)
    | none => scanSkip f cs (i + 1) 0

inductive MarkupKind
  | markdown
  | html
deriving Repr, DecidableEq

/-- One element of the `references` array (the parse-time fields; the zip
image payload is stood in for by the resolved asset path, the actual bytes
being external IO). -/
structure ImageReferenceRec where
  lineNumber : Nat
  alt : Str
  path : Str
  context : Str
  status : RefStatus
  originalImage : Option Str := none
  startIndex : Nat
  matchLength : Nat
  skind : MarkupKind
deriving Repr, DecidableEq

/-- The ±500-character context slice around a match, clipped to the document. -/
def contextSlice (doc : Str) (matchIndex matchLen : Nat) : Str :=
  let contextEnd := min doc.length (matchIndex + matchLen + 500)
  (doc.take contextEnd).drop (matchIndex - 500)

/-- Leading `./` stripping before the asset lookup. -/
def normalizePath (p : Str) : Str :=
  if p.take 2 = "./".data then p.drop 2 else p

/-- `zipFilePaths.find(p => p.endsWith(normalizedPath))`; an empty `zipPaths`
models the non-zip upload. -/
def findAsset (zipPaths : List Str) (p : Str) : Option Str :=
  zipPaths.find? fun zp => (normalizePath p).isSuffixOf zp

/-- The records pushed by the inline-link scanning loop. -/
def mdRefs (doc : Str) (zipPaths : List Str) : List ImageReferenceRec :=
  (scanSkip mdMatchAt doc 0 0).map fun m =>
    let path := processMdPath m.2.2.2
    { lineNumber := (doc.take m.1).count '\n' + 1
      alt := unescapeChars m.2.2.1
      path := path
      context := contextSlice doc m.1 m.2.1
      status := if (findAsset zipPaths path).isSome then .existing else .toGenerate
      originalImage := findAsset zipPaths path
      startIndex := m.1
      matchLength := m.2.1
      skind := .markdown }

/-- The records pushed by the tag scanning loop: an entry without a truthy
`src` value is discarded. -/
def htmlRefs (doc : Str) (zipPaths : List Str) : List ImageReferenceRec :=
  (scanSkip htmlMatchAt doc 0 0).filterMap fun m =>
    match attrSearch "src".data false m.2.2 with
    | none => none
    | some sm =>
      match groupsToPath sm.2.2 with
      | none => none
      | some path =>
        let alt :=
          match attrSearch "alt".data true m.2.2 with
          | none => ([] : Str)
          | some am => (groupsToPath am.2.2).getD []
        some
          { lineNumber := (doc.take m.1).count '\n' + 1
            alt := alt
            path := path
            context := contextSlice doc m.1 m.2.1
            status := if (findAsset zipPaths path).isSome then .existing else .toGenerate
            originalImage := findAsset zipPaths path
            startIndex := m.1
            matchLength := m.2.1
            skind := .html }

/-- The comparator `(a, b) => a.lineNumber - b.lineNumber`. -/
def byLine (a b : ImageReferenceRec) : Prop :=
  a.lineNumber ≤ b.lineNumber

instance : DecidableRel byLine := fun _ _ => Nat.decLe _ _

instance : IsTotal ImageReferenceRec byLine :=
  ⟨fun a b => Nat.le_total a.lineNumber b.lineNumber⟩

instance : IsTrans ImageReferenceRec byLine :=
  ⟨fun _ _ _ h1 h2 => Nat.le_trans h1 h2⟩

/-- `parseAndFindReferences`: both scanning passes, then the stable
`references.sort((a, b) => a.lineNumber - b.lineNumber)` (modelled by the
stable `insertionSort`). -/
def parseAndFindReferences (doc : Str) (zipPaths : List Str) :
    List ImageReferenceRec :=
  List.insertionSort byLine (mdRefs doc zipPaths ++ htmlRefs doc zipPaths)

/-- Slicing the original text at a source span: `text.substr(start, len)`. -/
def sliceAt (doc : Str) (i len : Nat) : Str := (doc.drop i).take len

def mdMarkup (a p : Str) : Str :=
  '!' :: '[' :: (a ++ ']' :: '(' :: (p ++ [')']))

def htmlMarkup (c1 c2 c3 : Char) (attrs : Str) : Str :=
  '<' :: c1 :: c2 :: c3 :: (attrs ++ ['>'])

def docC3 : Str := "![](a.png)\n\n![Cat](b.png)".data

/-- A document mixing the two syntaxes on one line, with the tag placeholder
first in source order. -/
def mixedDoc : Str := "<img src=\"a.png\"> ![x](b.png)".data

/-! ## Document rebuilder (`handleBuildExports` in the App) -/

/-- The per-placeholder data the rebuild loop consumes: the source span, the
syntax kind, and the captioned alt text / relative image path produced for
the chosen image. -/
structure ExportInfo where
  startIndex : Nat
  matchLength : Nat
  skind : MarkupKind
  alt : Str
  relPath : Str
deriving Repr, DecidableEq

/-- Leftmost match of an anchored matcher `m`, as `(index, length)` —
`String.prototype.replace` with a non-global regex. -/
def findFirstMatch (m : Str → Option Nat) : Str → Option (Nat × Nat)
  | [] => (m []).map fun len => (0, len)
  | c :: cs =>
    match m (c :: cs) with
    | some len => some (0, len)
    | none => (findFirstMatch m cs).map fun p => (p.1 + 1, p.2)

/-- `s.replace(pattern, repl)` for a non-global pattern: splice `repl` over
the leftmost match, identity when there is none. -/
def replaceFirst (m : Str → Option Nat) (repl : Str) (s : Str) : Str :=
  match findFirstMatch m s with
  | none => s
  | some (i, len) => s.take i ++ repl ++ s.drop (i + len)

/-- `/src\s*=\s*(?:"[^"]*"|'[^']*'|[^\s>]+)/i` anchored, length only. -/
def srcAttrMatcher (s : Str) : Option Nat :=
  (attrMatchAt "src".data false s).map (·.1)

/-- `/alt\s*=\s*(?:"[^"]*"|'[^']*'|[^\s>]+)/i` anchored, length only. -/
def altAttrMatcher (s : Str) : Option Nat :=
  (attrMatchAt "alt".data false s).map (·.1)

/-- `/alt\s*=\s*/i` anchored: the `.test` pattern guarding the alt rewrite. -/
def altBareAt (s : Str) : Option Nat :=
  if (s.take 3).map Char.toLower = "alt".data then
    match (s.drop 3).dropWhile isJsWs with
    | '=' :: s2 =>
      some (3 + ((s.drop 3).takeWhile isJsWs).length + 1 + (s2.takeWhile isJsWs).length)
    | _ => none
  else none

def hasAltAttr (s : Str) : Bool := (findFirstMatch altBareAt s).isSome

/-- `/<img/i` anchored. -/
def imgTagMatcher (s : Str) : Option Nat :=
  if (s.take 4).map Char.toLower = "<img".data then some 4 else none

/-- The replacement text substituted for one placeholder span: inline-link
syntax is rebuilt as `![alt](relPath)`; tag syntax has its `src` rewritten,
then its `alt` rewritten in place when an `alt=` attribute is present, else
an `alt` attribute is inserted after `<img`. -/
def replacementFor (doc : Str) (info : ExportInfo) : Str :=
  match info.skind with
  | .markdown => mdMarkup info.alt info.relPath
  | .html =>
    let original := sliceAt doc info.startIndex info.matchLength
    let replaced := replaceFirst srcAttrMatcher
      ("src=\"".data ++ info.relPath ++ "\"".data) original
    if hasAltAttr replaced then
      replaceFirst altAttrMatcher
        ("alt=\"".data ++ info.alt ++ "\"".data) replaced
    else
      replaceFirst imgTagMatcher
        ("<img alt=\"".data ++ info.alt ++ "\"".data) replaced

def byStartLe (a b : ExportInfo) : Prop := a.startIndex ≤ b.startIndex

instance : DecidableRel byStartLe := fun _ _ => Nat.decLe _ _

instance : IsTotal ExportInfo byStartLe :=
  ⟨fun a b => Nat.le_total a.startIndex b.startIndex⟩

instance : IsTrans ExportInfo byStartLe :=
  ⟨fun _ _ _ h1 h2 => Nat.le_trans h1 h2⟩

/-- The cursor walk of `handleBuildExports`: emit `slice(cursor, start)`,
then the replacement, then continue from the span end; finally emit
`slice(cursor)`. -/
def rebuildLoop (doc : Str) : List ExportInfo → Nat → Str
  | [], cursor => doc.drop cursor
  | info :: rest, cursor =>
    ((doc.take info.startIndex).drop cursor) ++ replacementFor doc info ++
      rebuildLoop doc rest (info.startIndex + info.matchLength)

/-- The whole rebuild: sort by start index, then walk. -/
def rebuildMarkdown (doc : Str) (infos : List ExportInfo) : Str :=
  rebuildLoop doc (List.insertionSort byStartLe infos) 0

/-- The segment decomposition of the original text induced by the spans. -/
def segmentedOriginal (doc : Str) : List ExportInfo → Nat → Str
  | [], c => doc.drop c
  | i :: r, c =>
    (doc.drop c).take (i.startIndex - c) ++ sliceAt doc i.startIndex i.matchLength ++
      segmentedOriginal doc r (i.startIndex + i.matchLength)

/-- The same decomposition with every span replaced by its substitution and
every inter-span segment kept verbatim. -/
def segmentedRebuild (doc : Str) : List ExportInfo → Nat → Str
  | [], c => doc.drop c
  | i :: r, c =>
    (doc.drop c).take (i.startIndex - c) ++ replacementFor doc i ++
      segmentedRebuild doc r (i.startIndex + i.matchLength)

/-- Sorted, pairwise non-overlapping, in-bounds spans starting at cursor `c`. -/
def SpansOk (doc : Str) : List ExportInfo → Nat → Prop
  | [], _ => True
  | i :: r, c => c ≤ i.startIndex ∧ i.startIndex + i.matchLength ≤ doc.length ∧
      SpansOk doc r (i.startIndex + i.matchLength)

instance instDecidableSpansOk (doc : Str) : ∀ (l : List ExportInfo) (c : Nat),
    Decidable (SpansOk doc l c)
  | [], _ => isTrue trivial
  | i :: r, c =>
    haveI := instDecidableSpansOk doc r (i.startIndex + i.matchLength)
    inferInstanceAs (Decidable (c ≤ i.startIndex ∧
      i.startIndex + i.matchLength ≤ doc.length ∧
      SpansOk doc r (i.startIndex + i.matchLength)))

def docW : Str := "A ![old](x.png) B <img src=a.png> C".data

def infoW1 : ExportInfo :=
  { startIndex := 2, matchLength := 13, skind := .markdown,
    alt := "new".data, relPath := "images/1-new.png".data }

def infoW2 : ExportInfo :=
  { startIndex := 18, matchLength := 15, skind := .html,
    alt := "n2".data, relPath := "images/1-n2.png".data }

/-! ## Style reference capture (`handleImageSelect` / `handleNext` /
`handlePrevious` in the App) -/

/-- The session state read and written by the selection and navigation
handlers.  The captured `Part` payload is stood in for by the selected
image's data-url string (the `Part` built from it is a fixed injection of
that string). -/
structure SessionState where
  maintainStyle : Bool
  styleReferenceImage : Option Str := none
  currentReferenceIndex : Option Nat := none
  imageReferences : List ImageReferenceState
deriving Repr, DecidableEq

/-- The image resolution inside the style-capture block of
`handleImageSelect` (nb: for an existing placeholder's slot 0 it falls back
to `originalImage`, unlike `allImagesSelected`). -/
def styleCaptureImageFor (ref : ImageReferenceState) (idx : Nat) : Option Str :=
  match ref.status with
  | .toGenerate =>
    match indexPairHist ref.histories idx with
    | some h => historyCurrentImage h
    | none => indexPairImg ref.generatedImages idx
  | .existing =>
    if idx = 0 then
      match indexPairHist ref.histories 0 with
      | some h => historyCurrentImage h
      | none => ref.originalImage
    else
      match indexPairHist ref.histories 1 with
      | some h => historyCurrentImage h
      | none => ref.generatedVariation

/-- `updatedReferences[currentReferenceIndex].selectedIndex = imageIndex`. -/
def setSelectedIndex (refs : List ImageReferenceState) (i idx : Nat) :
    List ImageReferenceState :=
  refs.mapIdx fun j r => if j = i then { r with selectedIndex := some idx } else r

/-- `handleNext`: advance the current index, clamped to the last reference. -/
def handleNext (s : SessionState) : SessionState :=
  match s.currentReferenceIndex with
  | none => s
  | some ci =>
    { s with currentReferenceIndex := some (min (s.imageReferences.length - 1) (ci + 1)) }

/-- `handlePrevious`: move the current index back, clamped to 0. -/
def handlePrevious (s : SessionState) : SessionState :=
  match s.currentReferenceIndex with
  | none => s
  | some ci => { s with currentReferenceIndex := some (ci - 1) }

/-- `handleImageSelect(imageIndex)`: capture the picked image as the style
reference only when maintaining style, the current reference is the first
one, and no style reference is set yet; record the selection; then advance. -/
def handleImageSelect (imageIndex : Nat) (s : SessionState) : SessionState :=
  match s.currentReferenceIndex with
  | none => s
  | some ci =>
    let s1 :=
      if s.maintainStyle = true ∧ ci = 0 ∧ s.styleReferenceImage = none then
        match s.imageReferences.get? ci with
        | none => s
        | some ref =>
          match styleCaptureImageFor ref imageIndex with
          | some img =>
            if img.isEmpty then s else { s with styleReferenceImage := some img }
          | none => s
      else s
    let s2 := { s1 with imageReferences := setSelectedIndex s1.imageReferences ci imageIndex }
    handleNext s2

inductive SessionEvent
  | selectImage (idx : Nat)
  | next
  | prev
deriving Repr, DecidableEq

def sessionStep (s : SessionState) : SessionEvent → SessionState
  | .selectImage idx => handleImageSelect idx s
  | .next => handleNext s
  | .prev => handlePrevious s

/-- A second placeholder whose candidate images exist. -/
def refW2 : ImageReferenceState :=
  { status := .toGenerate,
    generatedImages := some (some "img-c".data, some "img-d".data) }

/-- A first placeholder with candidate images and no selection yet. -/
def refW1 : ImageReferenceState :=
  { status := .toGenerate,
    generatedImages := some (some "img-a".data, some "img-b".data) }

/-- A session with maintain-style on, no explicit style reference, and two
resolvable placeholders, currently on the first one. -/
def sessionW : SessionState :=
  { maintainStyle := true, styleReferenceImage := none,
    currentReferenceIndex := some 0, imageReferences := [refW1, refW2] }

theorem retryLoop_succeeds {α : Type} (op : Nat → Except Str α) :
    ∀ (m : Nat) (i remaining : Nat) (lastError : Option Str) (v : α),
      m < remaining →
      (∀ j, j < m → ∃ e, op (i + j) = .error e ∧ isRetryableMessage e = true) →
      op (i + m) = .ok v →
      retryLoop op lastError i remaining = ⟨.ok v, m + 1⟩ := by
  intro m
  induction m with
  | zero =>
    intro i remaining lastError v hlt _ hok
    obtain ⟨r, rfl⟩ : ∃ r, remaining = r + 1 := ⟨remaining - 1, by omega⟩
    simp only [retryLoop]
    rw [show i + 0 = i from rfl] at hok
    rw [hok]
  | succ m ih =>
    intro i remaining lastError v hlt hfail hok
    obtain ⟨r, rfl⟩ : ∃ r, remaining = r + 1 := ⟨remaining - 1, by omega⟩
    obtain ⟨e, he, hre⟩ := hfail 0 (Nat.succ_pos m)
    rw [Nat.add_zero] at he
    simp only [retryLoop, he, hre, if_true]
    have := ih (i + 1) r (some e) v (by omega)
      (fun j hj => by
        obtain ⟨e', he', hre'⟩ := hfail (j + 1) (by omega)
        exact ⟨e', by rw [show i + 1 + j = i + (j + 1) by omega]; exact he', hre'⟩)
      (by rw [show i + 1 + m = i + (m + 1) by omega]; exact hok)
    rw [this]

theorem retryLoop_attempts_le {α : Type} (op : Nat → Except Str α) :
    ∀ (remaining i : Nat) (lastError : Option Str),
      (retryLoop op lastError i remaining).attempts ≤ remaining := by
  intro remaining
  induction remaining with
  | zero => intro i lastError; simp [retryLoop]
  | succ r ih =>
    intro i lastError
    simp only [retryLoop]
    cases hop : op i with
    | ok v => simp
    | error e =>
      by_cases hre : isRetryableMessage e = true
      · simp only [hre, if_true]
        have := ih (i + 1) (some e)
        simpa using Nat.succ_le_succ this
      · simp only [Bool.not_eq_true] at hre
        simp [hre]

theorem retryLoop_exhausted {α : Type} (op : Nat → Except Str α) (err : Nat → Str) :
    ∀ (remaining i : Nat) (lastError : Option Str),
      0 < remaining →
      (∀ j, j < remaining → op (i + j) = .error (err (i + j)) ∧
        isRetryableMessage (err (i + j)) = true) →
      retryLoop op lastError i remaining = ⟨.error (err (i + remaining - 1)), remaining⟩ := by
  intro remaining
  induction remaining with
  | zero => omega
  | succ r ih =>
    intro i lastError _ hfail
    obtain ⟨he, hre⟩ := hfail 0 (Nat.succ_pos r)
    rw [Nat.add_zero] at he hre
    simp only [retryLoop, he, hre, if_true]
    rcases Nat.eq_zero_or_pos r with hr | hr
    · subst hr
      simp [retryLoop]
    · have := ih (i + 1) (some (err i)) hr
        (fun j hj => by
          have := hfail (j + 1) (by omega)
          rw [show i + (j + 1) = i + 1 + j by omega] at this
          exact this)
      rw [this, show i + 1 + r - 1 = i + (r + 1) - 1 by omega]

/-- C1: `generateContentWithRetry` makes exactly `m + 1` attempts and returns the
success value when the operation fails retryably (rate-limit / resource-exhaustion
message) `m` times (`m` at most 4) and then succeeds; a first non-retryable failure
propagates after exactly 1 attempt; no more than 5 attempts are ever made; and when
all 5 attempts fail retryably the last observed error is raised. -/
theorem claim_C1_retry {α : Type} (op : Nat → Except Str α) :
    (∀ (m : Nat) (v : α), m ≤ 4 →
        (∀ j, j < m → ∃ e, op j = .error e ∧ isRetryableMessage e = true) →
        op m = .ok v →
        generateContentWithRetry op 5 = ⟨.ok v, m + 1⟩) ∧
    (∀ e, op 0 = .error e → isRetryableMessage e = false →
        generateContentWithRetry op 5 = ⟨.error e, 1⟩) ∧
    (generateContentWithRetry op 5).attempts ≤ 5 ∧
    (∀ err : Nat → Str,
        (∀ j, j < 5 → op j = .error (err j) ∧ isRetryableMessage (err j) = true) →
        generateContentWithRetry op 5 = ⟨.error (err 4), 5⟩) := by
  refine ⟨?_, ?_, ?_, ?_⟩
  · intro m v hm hfail hok
    exact retryLoop_succeeds op m 0 5 none v (by omega)
      (fun j hj => by simpa using hfail j hj) (by simpa using hok)
  · intro e he hre
    simp only [generateContentWithRetry, retryLoop, he, hre]
    simp
  · exact retryLoop_attempts_le op 5 0 none
  · intro err hfail
    exact retryLoop_exhausted op err 5 0 none (by omega)
      (fun j hj => by simpa using hfail j hj)

/-- Witness for C1: a concrete operation failing retryably twice then succeeding
makes 3 attempts, and a concrete non-retryable failure propagates after 1 attempt. -/
theorem claim_C1_retry_witness :
    generateContentWithRetry opWitness 5 = ⟨.ok 7, 3⟩ ∧
    generateContentWithRetry opWitnessFatal 5 = ⟨.error "permission denied".data, 1⟩ := by
  constructor
  · exact (claim_C1_retry opWitness).1 2 7 (by omega)
      (fun j hj => ⟨"HTTP 429: slow down".data, by
        unfold opWitness
        rw [if_pos hj], by decide⟩)
      rfl
  · exact (claim_C1_retry opWitnessFatal).2.1 "permission denied".data rfl (by decide)

theorem recordGet_set_self (m : List (Str × ImageVersionNode)) (k : Str)
    (v : ImageVersionNode) : recordGet (recordSet m k v) k = some v := by
  unfold recordSet
  by_cases hany : m.any (fun p => decide (p.1 = k)) = true
  · rw [if_pos hany]
    induction m with
    | nil => simp at hany
    | cons p m ih =>
      rw [List.any_cons, Bool.or_eq_true] at hany
      by_cases hp : p.1 = k
      · simp [recordGet, List.find?_cons, hp]
      · have hm : m.any (fun p => decide (p.1 = k)) = true := by
          rcases hany with h | h
          · exact absurd (of_decide_eq_true h) hp
          · exact h
        simp only [List.map_cons, if_neg hp]
        rw [recordGet, List.find?_cons]
        simp only [decide_eq_false hp]
        exact ih hm
  · rw [if_neg hany]
    rw [recordGet, List.find?_append]
    have hnone : m.find? (fun p => decide (p.1 = k)) = none := by
      rw [List.find?_eq_none]
      intro x hx hk
      exact hany (List.any_eq_true.mpr ⟨x, hx, hk⟩)
    simp [hnone]

theorem editSuccess_order (h : ImageHistory) (raw : Option Str) (newId instr : Str)
    (now : Nat) (cn : ImageVersionNode)
    (hcn : recordGet h.nodes h.currentId = some cn) :
    (handleEditInstructionSlot h (.success raw) newId instr now).order =
      h.order ++ [newId] := by
  simp only [handleEditInstructionSlot, hcn]

theorem editSuccess_currentId (h : ImageHistory) (raw : Option Str) (newId instr : Str)
    (now : Nat) (cn : ImageVersionNode)
    (hcn : recordGet h.nodes h.currentId = some cn) :
    (handleEditInstructionSlot h (.success raw) newId instr now).currentId = newId := by
  simp only [handleEditInstructionSlot, hcn]

theorem editSuccess_current_isSome (h : ImageHistory) (raw : Option Str)
    (newId instr : Str) (now : Nat) (cn : ImageVersionNode)
    (hcn : recordGet h.nodes h.currentId = some cn) :
    (recordGet (handleEditInstructionSlot h (.success raw) newId instr now).nodes
      (handleEditInstructionSlot h (.success raw) newId instr now).currentId).isSome := by
  simp only [handleEditInstructionSlot, hcn, recordGet_set_self]
  rfl

theorem appendRun_spec (edits : List (Str × Str × Str)) :
    ∀ (h : ImageHistory) (now : Nat), (recordGet h.nodes h.currentId).isSome →
      (appendRun h edits now).order = h.order ++ edits.map (·.1) ∧
      (appendRun h edits now).currentId = (edits.map (·.1)).getLastD h.currentId ∧
      (recordGet (appendRun h edits now).nodes (appendRun h edits now).currentId).isSome := by
  induction edits with
  | nil => intro h now hcur; simpa [appendRun] using hcur
  | cons e rest ih =>
    intro h now hcur
    obtain ⟨cn, hcn⟩ := Option.isSome_iff_exists.mp hcur
    have hstep : appendRun h (e :: rest) now =
        appendRun (handleEditInstructionSlot h (.success (some e.2.1)) e.1 e.2.2 now)
          rest now := by
      simp [appendRun]
    have hsome := editSuccess_current_isSome h (some e.2.1) e.1 e.2.2 now cn hcn
    obtain ⟨o1, c1, s1⟩ := ih _ now hsome
    refine ⟨?_, ?_, ?_⟩
    · rw [hstep, o1, editSuccess_order h (some e.2.1) e.1 e.2.2 now cn hcn]
      simp
    · rw [hstep, c1, editSuccess_currentId h (some e.2.1) e.1 e.2.2 now cn hcn]
      rw [List.map_cons, List.getLastD_cons]
    · rw [hstep]
      exact s1

theorem nav_order_eq (h : ImageHistory) (d : NavDirection) :
    (handleNavigateHistorySlot h d).order = h.order := by
  cases d <;>
    (unfold handleNavigateHistorySlot; dsimp only; split <;> (try split) <;> rfl)

theorem nav_prev_getElem (h : ImageHistory) (hnd : h.order.Nodup) (i : Nat)
    (hi : i + 1 < h.order.length) (hcur : h.currentId = h.order[i + 1]) :
    handleNavigateHistorySlot h .prev =
      { h with currentId := h.order.get ⟨i, by omega⟩ } := by
  have hmem : h.currentId ∈ h.order := by
    rw [hcur]; exact List.getElem_mem _
  have hidx : jsIndexOf h.currentId h.order = i + 1 := by
    rw [hcur]; exact List.indexOf_getElem hnd _ _
  unfold handleNavigateHistorySlot
  rw [if_pos hmem]
  simp only [hidx, Nat.add_sub_cancel, if_pos (Nat.succ_pos i)]
  rw [List.getD_eq_getElem _ _ (by omega : i < h.order.length)]
  rfl

theorem navigateIter_to_head :
    ∀ (i : Nat) (h : ImageHistory), h.order.Nodup → ∀ (hi : i < h.order.length),
      h.currentId = h.order.get ⟨i, hi⟩ →
      (navigateIter h i).currentId =
        h.order.get ⟨0, Nat.lt_of_le_of_lt (Nat.zero_le i) hi⟩ := by
  intro i
  induction i with
  | zero =>
    intro h _ hi hcur
    simpa [navigateIter] using hcur
  | succ i ih =>
    intro h hnd hi hcur
    have hstep := nav_prev_getElem h hnd i hi (by simpa using hcur)
    show (navigateIter (handleNavigateHistorySlot h .prev) i).currentId = _
    rw [hstep]
    exact ih { h with currentId := h.order.get ⟨i, by omega⟩ } hnd
      (by show i < h.order.length; omega) rfl

theorem get_cons_length (a : Str) (l : List Str) :
    (a :: l).get ⟨l.length, by simp⟩ = l.getLastD a := by
  induction l generalizing a with
  | nil => rfl
  | cons b l ih =>
    rw [List.getLastD_cons]
    exact ih b

theorem get_zero_of_eq_cons (l : List Str) (a : Str) (rest : List Str)
    (h : l = a :: rest) (h0 : 0 < l.length) : l.get ⟨0, h0⟩ = a := by
  subst h
  rfl

theorem get_len_of_eq_cons (l : List Str) (a : Str) (rest : List Str)
    (h : l = a :: rest) (hlen : rest.length < l.length) :
    l.get ⟨rest.length, hlen⟩ = rest.getLastD a := by
  subst h
  exact get_cons_length a rest

theorem nav_prev_noop (h : ImageHistory) (h0 : jsIndexOf h.currentId h.order = 0) :
    handleNavigateHistorySlot h .prev = h := by
  unfold handleNavigateHistorySlot
  by_cases hmem : h.currentId ∈ h.order
  · rw [if_pos hmem]
    dsimp only
    rw [h0, if_neg (lt_irrefl 0)]
  · rw [if_neg hmem]

theorem nav_next_noop (h : ImageHistory) (hmem : h.currentId ∈ h.order)
    (hlast : jsIndexOf h.currentId h.order + 1 = h.order.length) :
    handleNavigateHistorySlot h .next = h := by
  unfold handleNavigateHistorySlot
  rw [if_pos hmem]
  dsimp only
  rw [if_neg (by omega : ¬ jsIndexOf h.currentId h.order < h.order.length - 1)]

/-- C5: `initialize` creates a single-node tree whose root is current; after
`initialize` and `k` sequential appends the linear order has length `k + 1`
and the cursor is on the last appended id; `prev` repeated `k` times returns
the cursor to the root; and `prev` at the start or `next` at the end of the
linear order is a no-op. -/
theorem claim_C5_versionHistory :
    (∀ (img id : Str) (now : Nat), ¬ img.isEmpty = true →
        createInitialHistory (some img) id now = some (initializeHistory img id now) ∧
        (initializeHistory img id now).order = [id] ∧
        (initializeHistory img id now).currentId = id ∧
        (initializeHistory img id now).rootId = id ∧
        (initializeHistory img id now).nodes =
          [(id, { id := id, imageData := img, parentId := none,
                  childrenIds := [], createdAt := now })]) ∧
    (∀ (img id0 : Str) (now : Nat) (edits : List (Str × Str × Str)),
        (appendRun (initializeHistory img id0 now) edits now).order.length
            = edits.length + 1 ∧
        (appendRun (initializeHistory img id0 now) edits now).currentId
            = (edits.map (·.1)).getLastD id0 ∧
        ((id0 :: edits.map (·.1)).Nodup →
          (navigateIter (appendRun (initializeHistory img id0 now) edits now)
            edits.length).currentId = id0)) ∧
    (∀ h : ImageHistory, jsIndexOf h.currentId h.order = 0 →
        handleNavigateHistorySlot h .prev = h) ∧
    (∀ h : ImageHistory, h.currentId ∈ h.order →
        jsIndexOf h.currentId h.order + 1 = h.order.length →
        handleNavigateHistorySlot h .next = h) := by
  refine ⟨?_, ?_, nav_prev_noop, nav_next_noop⟩
  · intro img id now hne
    refine ⟨?_, rfl, rfl, rfl, rfl⟩
    simp [createInitialHistory, hne]
  · intro img id0 now edits
    have hinit : (recordGet (initializeHistory img id0 now).nodes
        (initializeHistory img id0 now).currentId).isSome := by
      simp [recordGet, initializeHistory]
    obtain ⟨ho, hc, _⟩ := appendRun_spec edits (initializeHistory img id0 now) now hinit
    have ho' : (appendRun (initializeHistory img id0 now) edits now).order
        = id0 :: edits.map (·.1) := by
      rw [ho]; rfl
    have hc' : (appendRun (initializeHistory img id0 now) edits now).currentId
        = (edits.map (·.1)).getLastD id0 := hc
    refine ⟨by rw [ho']; simp, hc', ?_⟩
    intro hnd
    set hk := appendRun (initializeHistory img id0 now) edits now with hhk
    have hlen : edits.length < hk.order.length := by
      rw [ho']; simp
    have hlen2 : (edits.map (·.1)).length < hk.order.length := by
      rw [ho']; simp
    have hcur : hk.currentId = hk.order.get ⟨edits.length, hlen⟩ := by
      rw [hc']
      have h9 := get_len_of_eq_cons hk.order id0 (edits.map (·.1)) ho'
        (by simpa using hlen2)
      rw [← h9]
      congr 1
      simp
    have := navigateIter_to_head edits.length hk (by rw [ho']; exact hnd) hlen hcur
    rw [this]
    exact get_zero_of_eq_cons hk.order id0 (edits.map (·.1)) ho' _

/-- C10: when the edit call for a slot fails, the slot history keeps its node
set, linear order, cursor and root unchanged; only the error message and the
in-progress flag change. -/
theorem claim_C10_editFailureAtomic (h : ImageHistory) (msg : Option Str)
    (newId instr : Str) (now : Nat) :
    handleEditInstructionSlot h (.failure msg) newId instr now =
      { h with isEditing := false, error := some (msg.getD "Edit failed".data) } ∧
    (handleEditInstructionSlot h (.failure msg) newId instr now).nodes = h.nodes ∧
    (handleEditInstructionSlot h (.failure msg) newId instr now).order = h.order ∧
    (handleEditInstructionSlot h (.failure msg) newId instr now).currentId
        = h.currentId ∧
    (handleEditInstructionSlot h (.failure msg) newId instr now).rootId = h.rootId :=
  ⟨rfl, rfl, rfl, rfl, rfl⟩

/-- Witness for C5: a concrete two-append run has linear order of length 3,
cursor on the second appended id, `prev` twice returns to the root, and
`prev` at the root is a no-op. -/
theorem claim_C5_versionHistory_witness :
    (appendRun (initializeHistory "i0".data "r".data 0) editsW 0).order.length = 3 ∧
    (appendRun (initializeHistory "i0".data "r".data 0) editsW 0).currentId
        = "b".data ∧
    (navigateIter (appendRun (initializeHistory "i0".data "r".data 0) editsW 0)
        2).currentId = "r".data ∧
    handleNavigateHistorySlot histW .prev = histW := by
  obtain ⟨h1, h2, h3⟩ :=
    claim_C5_versionHistory.2.1 "i0".data "r".data 0 editsW
  refine ⟨by rw [h1]; rfl, by rw [h2]; rfl, ?_, ?_⟩
  · have := h3 (by decide)
    simpa using this
  · exact claim_C5_versionHistory.2.2.1 histW (by decide)

/-- C6: a returned payload is accepted only when it is a well-formed,
non-trivial image envelope (`data:image/(png|jpeg|jpg|webp|gif);base64,`
prefix, length at least 200); a malformed or empty payload or a failed
generation nulls only that candidate, while the sibling candidate is still
validated, stored and given its initial history independently. -/
theorem claim_C6_candidateValidation :
    (∀ s : Str, normalizeImage (some s) = some s ↔
        (isImageDataUrlPrefix s = true ∧ 200 ≤ s.length)) ∧
    (∀ s : Str, normalizeImage (some s) = none ∨ normalizeImage (some s) = some s) ∧
    normalizeImage none = none ∧
    (∀ raw1 raw2 id1 id2 now,
        (finalizeCandidates raw1 raw2 id1 id2 now).generatedImages
            = (normalizeImage raw1, normalizeImage raw2) ∧
        (finalizeCandidates raw1 raw2 id1 id2 now).histories
            = (createInitialHistory (normalizeImage raw1) id1 now,
               createInitialHistory (normalizeImage raw2) id2 now)) ∧
    (∀ raw1 raw1' raw2 id1 id2 now,
        (finalizeCandidates raw1 raw2 id1 id2 now).generatedImages.2
            = (finalizeCandidates raw1' raw2 id1 id2 now).generatedImages.2 ∧
        (finalizeCandidates raw1 raw2 id1 id2 now).histories.2
            = (finalizeCandidates raw1' raw2 id1 id2 now).histories.2) := by
  have hsome : ∀ s : Str, normalizeImage (some s) =
      (if s.isEmpty then none
       else if !isImageDataUrlPrefix s then none
       else if s.length < 200 then none else some s) := fun _ => rfl
  refine ⟨?_, ?_, rfl, fun _ _ _ _ _ => ⟨rfl, rfl⟩, fun _ _ _ _ _ _ => ⟨rfl, rfl⟩⟩
  · intro s
    rw [hsome]
    constructor
    · intro h
      by_cases h1 : s.isEmpty = true
      · rw [if_pos h1] at h; cases h
      · rw [if_neg h1] at h
        by_cases hp : isImageDataUrlPrefix s = true
        · have h2 : ¬((!isImageDataUrlPrefix s) = true) := by
            rw [hp]; exact Bool.false_ne_true
          rw [if_neg h2] at h
          by_cases h3 : s.length < 200
          · rw [if_pos h3] at h; cases h
          · exact ⟨hp, by omega⟩
        · have hp' : isImageDataUrlPrefix s = false := by simpa using hp
          have h2 : (!isImageDataUrlPrefix s) = true := by rw [hp']; rfl
          rw [if_pos h2] at h; cases h
    · rintro ⟨hp, hl⟩
      have h1 : ¬(s.isEmpty = true) := by
        cases s with
        | nil => exact absurd hl (by decide)
        | cons a l => exact fun hh => Bool.noConfusion hh
      have h2 : ¬((!isImageDataUrlPrefix s) = true) := by
        rw [hp]
        exact Bool.false_ne_true
      rw [if_neg h1, if_neg h2, if_neg (by omega : ¬s.length < 200)]
  · intro s
    rw [hsome]
    split_ifs
    · exact Or.inl rfl
    · exact Or.inl rfl
    · exact Or.inl rfl
    · exact Or.inr rfl

set_option maxRecDepth 4096 in
/-- Witness for C6: a malformed first payload is nulled while the sibling
valid payload of the same placeholder is accepted and receives a history. -/
theorem claim_C6_candidateValidation_witness :
    (finalizeCandidates (some "oops".data) (some validImgW) "a".data "b".data
        0).generatedImages = (none, some validImgW) ∧
    (finalizeCandidates (some "oops".data) (some validImgW) "a".data "b".data
        0).histories.1 = none := by
  have hvalid : normalizeImage (some validImgW) = some validImgW :=
    (claim_C6_candidateValidation.1 validImgW).mpr
      ⟨by decide, by decide⟩
  have hbad : normalizeImage (some "oops".data) = none := by
    rcases claim_C6_candidateValidation.2.1 "oops".data with h | h
    · exact h
    · exact absurd ((claim_C6_candidateValidation.1 "oops".data).mp h).1 (by decide)
  constructor
  · rw [(claim_C6_candidateValidation.2.2.2.1 (some "oops".data) (some validImgW)
      "a".data "b".data 0).1, hbad, hvalid]
  · rw [show (finalizeCandidates (some "oops".data) (some validImgW) "a".data "b".data
        0).histories.1 = createInitialHistory (normalizeImage (some "oops".data))
        "a".data 0 from rfl, hbad]
    rfl

/-- C7: the export routine starts only when the placeholder list is nonempty
and every placeholder has a chosen slot index resolving (via that slot's
history current node or its generated image) to an existing, non-empty image;
no placeholder with an unset selection can pass the gate. -/
theorem claim_C7_exportGate (refs : List ImageReferenceState)
    (exportTriggered exporting : Bool) (zipUrl : Option Str)
    (hgate : shouldAutoExport refs exportTriggered exporting zipUrl = true) :
    refs ≠ [] ∧ ∀ ref ∈ refs, ∃ idx img, ref.selectedIndex = some idx ∧
      selectedImageFor ref idx = some img ∧ img ≠ [] := by
  unfold shouldAutoExport at hgate
  simp only [Bool.and_eq_true] at hgate
  have hall := hgate.1.1.1
  unfold allImagesSelected at hall
  by_cases hne : refs.isEmpty
  · rw [if_pos hne] at hall
    cases hall
  · rw [if_neg hne] at hall
    refine ⟨by simpa using hne, ?_⟩
    intro ref href
    have := (List.all_eq_true.mp hall) ref href
    cases hsel : ref.selectedIndex with
    | none => rw [hsel] at this; cases this
    | some idx =>
      rw [hsel] at this
      change jsTruthy (selectedImageFor ref idx) = true at this
      cases himg : selectedImageFor ref idx with
      | none => rw [himg] at this; cases this
      | some img =>
        rw [himg] at this
        refine ⟨idx, img, rfl, himg, ?_⟩
        intro hempty
        subst hempty
        cases this

/-- Witness for C7: a concrete state that passes the gate indeed has every
placeholder resolved. -/
theorem claim_C7_exportGate_witness :
    [refW] ≠ [] ∧ ∀ ref ∈ [refW], ∃ idx img, ref.selectedIndex = some idx ∧
      selectedImageFor ref idx = some img ∧ img ≠ [] :=
  claim_C7_exportGate [refW] false false none (by decide)

theorem mdMarkup_length (a p : Str) :
    (mdMarkup a p).length = a.length + p.length + 5 := by
  simp [mdMarkup]
  omega

theorem htmlMarkup_length (c1 c2 c3 : Char) (attrs : Str) :
    (htmlMarkup c1 c2 c3 attrs).length = attrs.length + 5 := by
  simp [htmlMarkup]

theorem mdMatchAt_spec (s : Str) (len : Nat) (a p : Str)
    (h : mdMatchAt s = some (len, a, p)) :
    len = a.length + p.length + 5 ∧ ∃ tail, s = mdMarkup a p ++ tail := by
  unfold mdMatchAt at h
  split at h
  · rename_i rest
    split at h
    · rename_i rest2 hdrop
      split at h
      · rename_i tail2 hdrop2
        simp only [Option.some.injEq, Prod.mk.injEq] at h
        obtain ⟨hlen, ha, hp⟩ := h
        subst ha hp
        have hrest := List.takeWhile_append_dropWhile
          (fun c => decide (c ≠ ']')) rest
        have hrest2 := List.takeWhile_append_dropWhile
          (fun c => decide (c ≠ ')') && decide (c ≠ '\n')) rest2
        rw [hdrop] at hrest
        rw [hdrop2] at hrest2
        set A := rest.takeWhile (fun c => decide (c ≠ ']')) with hA
        set P := rest2.takeWhile (fun c => decide (c ≠ ')') && decide (c ≠ '\n')) with hP
        refine ⟨hlen.symm, tail2, ?_⟩
        rw [mdMarkup]
        rw [← hrest, ← hrest2]
        simp
      · simp at h
    · simp at h
  · simp at h

theorem htmlMatchAt_spec (s : Str) (len : Nat) (attrs : Str)
    (h : htmlMatchAt s = some (len, attrs)) :
    len = attrs.length + 5 ∧ ∃ c1 c2 c3 tail, c1.toLower = 'i' ∧ c2.toLower = 'm' ∧
      c3.toLower = 'g' ∧ s = htmlMarkup c1 c2 c3 attrs ++ tail := by
  unfold htmlMatchAt at h
  split at h
  · rename_i c1 c2 c3 rest
    split at h
    · rename_i hlower
      split at h
      · rename_i tail2 hdrop
        dsimp only at h
        split at h
        · simp at h
        · rename_i hne
          simp only [Option.some.injEq, Prod.mk.injEq] at h
          obtain ⟨hlen, hattrs⟩ := h
          subst hattrs
          have hrest := List.takeWhile_append_dropWhile
            (fun c => decide (c ≠ '>')) rest
          rw [hdrop] at hrest
          set A := rest.takeWhile (fun c => decide (c ≠ '>')) with hA
          refine ⟨hlen.symm, c1, c2, c3, tail2, hlower.1, hlower.2.1, hlower.2.2, ?_⟩
          rw [htmlMarkup]
          rw [← hrest]
          simp
      · simp at h
    · simp at h
  · simp at h

theorem scanSkip_mem_ge (f : Str → Option (Nat × γ)) :
    ∀ (s : Str) (i skip : Nat), ∀ m ∈ scanSkip f s i skip, i ≤ m.1 := by
  intro s
  induction s with
  | nil => intro i skip m hm; simp [scanSkip] at hm
  | cons c cs ih =>
    intro i skip m hm
    cases skip with
    | succ k =>
      have := ih (i + 1) k m (by simpa [scanSkip] using hm)
      omega
    | zero =>
      rw [scanSkip] at hm
      cases hf : f (c :: cs) with
      | some lg =>
        obtain ⟨len, g⟩ := lg
        rw [hf] at hm
        rcases List.mem_cons.mp hm with rfl | hm'
        · exact Nat.le_refl i
        · have := ih (i + 1) (len - 1) m hm'
          omega
      | none =>
        rw [hf] at hm
        have := ih (i + 1) 0 m hm
        omega

theorem scanSkip_pairwise (f : Str → Option (Nat × γ)) :
    ∀ (s : Str) (i skip : Nat),
      List.Pairwise (fun a b => a.1 < b.1) (scanSkip f s i skip) := by
  intro s
  induction s with
  | nil => intro i skip; simp [scanSkip]
  | cons c cs ih =>
    intro i skip
    cases skip with
    | succ k => rw [scanSkip]; exact ih (i + 1) k
    | zero =>
      rw [scanSkip]
      cases hf : f (c :: cs) with
      | some lg =>
        obtain ⟨len, g⟩ := lg
        refine List.Pairwise.cons ?_ (ih (i + 1) (len - 1))
        intro b hb
        have := scanSkip_mem_ge f cs (i + 1) (len - 1) b hb
        omega
      | none => exact ih (i + 1) 0

theorem scanSkip_mem_spec (f : Str → Option (Nat × γ)) (doc : Str) :
    ∀ (s : Str) (i skip : Nat), s = doc.drop i →
      ∀ m ∈ scanSkip f s i skip, f (doc.drop m.1) = some (m.2.1, m.2.2) := by
  intro s
  induction s with
  | nil => intro i skip _ m hm; simp [scanSkip] at hm
  | cons c cs ih =>
    intro i skip hs m hm
    have hcs : cs = doc.drop (i + 1) := by
      have : (c :: cs).drop 1 = (doc.drop i).drop 1 := by rw [hs]
      simpa [List.drop_drop] using this
    cases skip with
    | succ k =>
      rw [scanSkip] at hm
      exact ih (i + 1) k hcs m hm
    | zero =>
      rw [scanSkip] at hm
      cases hf : f (c :: cs) with
      | some lg =>
        obtain ⟨len, g⟩ := lg
        rw [hf] at hm
        rcases List.mem_cons.mp hm with rfl | hm'
        · rw [← hs]
          exact hf
        · exact ih (i + 1) (len - 1) hcs m hm'
      | none =>
        rw [hf] at hm
        exact ih (i + 1) 0 hcs m hm

theorem md_slice (doc : Str) (i len : Nat) (a p : Str)
    (h : mdMatchAt (doc.drop i) = some (len, a, p)) :
    sliceAt doc i len = mdMarkup a p ∧ i + len ≤ doc.length := by
  obtain ⟨hlen, tail, htail⟩ := mdMatchAt_spec _ _ _ _ h
  have hml : (mdMarkup a p).length = len := by rw [mdMarkup_length]; omega
  constructor
  · rw [sliceAt, htail, List.take_left' hml]
  · have h1 : len ≤ (doc.drop i).length := by
      rw [htail, List.length_append, hml]
      omega
    rw [List.length_drop] at h1
    have h5 : 5 ≤ len := by omega
    omega

theorem html_slice (doc : Str) (i len : Nat) (attrs : Str)
    (h : htmlMatchAt (doc.drop i) = some (len, attrs)) :
    (∃ c1 c2 c3, c1.toLower = 'i' ∧ c2.toLower = 'm' ∧ c3.toLower = 'g' ∧
      sliceAt doc i len = htmlMarkup c1 c2 c3 attrs) ∧ i + len ≤ doc.length := by
  obtain ⟨hlen, c1, c2, c3, tail, h1, h2, h3, htail⟩ := htmlMatchAt_spec _ _ _ h
  have hml : (htmlMarkup c1 c2 c3 attrs).length = len := by rw [htmlMarkup_length]; omega
  constructor
  · exact ⟨c1, c2, c3, h1, h2, h3, by rw [sliceAt, htail, List.take_left' hml]⟩
  · have hb : len ≤ (doc.drop i).length := by
      rw [htail, List.length_append, hml]
      omega
    rw [List.length_drop] at hb
    have h5 : 5 ≤ len := by omega
    omega

theorem mem_mdRefs_spec (doc : Str) (zipPaths : List Str) (r : ImageReferenceRec)
    (hr : r ∈ mdRefs doc zipPaths) :
    r.skind = .markdown ∧
    r.lineNumber = (doc.take r.startIndex).count '\n' + 1 ∧
    ∃ a p, mdMatchAt (doc.drop r.startIndex) = some (r.matchLength, a, p) ∧
      r.alt = unescapeChars a ∧ r.path = processMdPath p := by
  unfold mdRefs at hr
  obtain ⟨m, hm, rfl⟩ := List.mem_map.mp hr
  have hf := scanSkip_mem_spec mdMatchAt doc doc 0 0 rfl m hm
  exact ⟨rfl, rfl, m.2.2.1, m.2.2.2, hf, rfl, rfl⟩

theorem mem_htmlRefs_spec (doc : Str) (zipPaths : List Str) (r : ImageReferenceRec)
    (hr : r ∈ htmlRefs doc zipPaths) :
    r.skind = .html ∧
    r.lineNumber = (doc.take r.startIndex).count '\n' + 1 ∧
    ∃ attrs, htmlMatchAt (doc.drop r.startIndex) = some (r.matchLength, attrs) ∧
      ∃ sm, attrSearch "src".data false attrs = some sm ∧
        groupsToPath sm.2.2 = some r.path := by
  unfold htmlRefs at hr
  obtain ⟨m, hm, hsome⟩ := List.mem_filterMap.mp hr
  have hf := scanSkip_mem_spec htmlMatchAt doc doc 0 0 rfl m hm
  split at hsome
  · cases hsome
  · rename_i sm hsm
    split at hsome
    · cases hsome
    · rename_i path hpath
      simp only [Option.some.injEq] at hsome
      subst hsome
      exact ⟨rfl, rfl, m.2.2, hf, sm, hsm, hpath⟩

theorem mdRefs_pairwise (doc : Str) (zipPaths : List Str) :
    List.Pairwise (fun a b => a.startIndex < b.startIndex) (mdRefs doc zipPaths) := by
  unfold mdRefs
  exact List.Pairwise.map _ (fun a b h => h) (scanSkip_pairwise mdMatchAt doc 0 0)

theorem pairwise_filterMap_of {α β : Type} {f : α → Option β} {R : α → α → Prop}
    {S : β → β → Prop}
    (H : ∀ a b a' b', R a b → f a = some a' → f b = some b' → S a' b') :
    ∀ {l : List α}, List.Pairwise R l → List.Pairwise S (l.filterMap f) := by
  intro l
  induction l with
  | nil => intro _; simp
  | cons a l ih =>
    intro hp
    rw [List.filterMap_cons]
    rcases List.pairwise_cons.mp hp with ⟨hhead, htail⟩
    cases hfa : f a with
    | none => exact ih htail
    | some b =>
      refine List.Pairwise.cons ?_ (ih htail)
      intro b' hb'
      obtain ⟨x, hx, hfx⟩ := List.mem_filterMap.mp hb'
      exact H a x b b' (hhead x hx) hfa hfx

theorem htmlRefs_pairwise (doc : Str) (zipPaths : List Str) :
    List.Pairwise (fun a b => a.startIndex < b.startIndex) (htmlRefs doc zipPaths) := by
  unfold htmlRefs
  refine pairwise_filterMap_of ?_ (scanSkip_pairwise htmlMatchAt doc 0 0)
  intro m1 m2 r1 r2 hlt h1 h2
  have e1 : r1.startIndex = m1.1 := by
    split at h1
    · cases h1
    · split at h1
      · cases h1
      · simp only [Option.some.injEq] at h1
        subst h1
        rfl
  have e2 : r2.startIndex = m2.1 := by
    split at h2
    · cases h2
    · split at h2
      · cases h2
      · simp only [Option.some.injEq] at h2
        subst h2
        rfl
  rw [e1, e2]
  exact hlt

theorem refs_nodup (doc : Str) (zipPaths : List Str) :
    (mdRefs doc zipPaths ++ htmlRefs doc zipPaths).Nodup := by
  rw [List.nodup_append]
  refine ⟨?_, ?_, ?_⟩
  · exact (mdRefs_pairwise doc zipPaths).imp
      (fun h => by intro he; rw [he] at h; omega)
  · exact (htmlRefs_pairwise doc zipPaths).imp
      (fun h => by intro he; rw [he] at h; omega)
  · intro a ha hb
    have h1 := (mem_mdRefs_spec doc zipPaths a ha).1
    have h2 := (mem_htmlRefs_spec doc zipPaths a hb).1
    rw [h1] at h2
    cases h2

/-- C2: the extractor returns one record per placeholder found by the two
scanning passes (a permutation of their concatenation, of the summed
length), sorted ascending by line number, where each record's line number is
1 plus the count of newlines before its match start, and slicing the
original text at each record's `(startIndex, matchLength)` span reproduces
the placeholder markup that was matched there, byte for byte. -/
theorem claim_C2_extractor (doc : Str) (zipPaths : List Str) :
    (parseAndFindReferences doc zipPaths).Perm
        (mdRefs doc zipPaths ++ htmlRefs doc zipPaths) ∧
    (parseAndFindReferences doc zipPaths).length
        = (mdRefs doc zipPaths).length + (htmlRefs doc zipPaths).length ∧
    (parseAndFindReferences doc zipPaths).Sorted byLine ∧
    (∀ r ∈ parseAndFindReferences doc zipPaths,
      r.lineNumber = (doc.take r.startIndex).count '\n' + 1 ∧
      r.startIndex + r.matchLength ≤ doc.length ∧
      (r.skind = .markdown → ∃ a p,
        mdMatchAt (doc.drop r.startIndex) = some (r.matchLength, a, p) ∧
        sliceAt doc r.startIndex r.matchLength = mdMarkup a p ∧
        r.alt = unescapeChars a ∧ r.path = processMdPath p) ∧
      (r.skind = .html → ∃ attrs c1 c2 c3,
        htmlMatchAt (doc.drop r.startIndex) = some (r.matchLength, attrs) ∧
        c1.toLower = 'i' ∧ c2.toLower = 'm' ∧ c3.toLower = 'g' ∧
        sliceAt doc r.startIndex r.matchLength = htmlMarkup c1 c2 c3 attrs)) := by
  have hperm := List.perm_insertionSort byLine
    (mdRefs doc zipPaths ++ htmlRefs doc zipPaths)
  refine ⟨hperm, by
      rw [parseAndFindReferences, hperm.length_eq, List.length_append],
    List.sorted_insertionSort byLine _, ?_⟩
  intro r hr
  have hr' : r ∈ mdRefs doc zipPaths ++ htmlRefs doc zipPaths := hperm.subset hr
  rcases List.mem_append.mp hr' with hmd | hhtml
  · obtain ⟨hk, hline, a, p, hm, halt, hpath⟩ := mem_mdRefs_spec doc zipPaths r hmd
    obtain ⟨hslice, hbound⟩ := md_slice doc r.startIndex r.matchLength a p hm
    refine ⟨hline, hbound, fun _ => ⟨a, p, hm, hslice, halt, hpath⟩, fun hk2 => ?_⟩
    rw [hk] at hk2
    cases hk2
  · obtain ⟨hk, hline, attrs, hm, _⟩ := mem_htmlRefs_spec doc zipPaths r hhtml
    obtain ⟨⟨c1, c2, c3, h1, h2, h3, hslice⟩, hbound⟩ :=
      html_slice doc r.startIndex r.matchLength attrs hm
    refine ⟨hline, hbound, fun hk2 => ?_, fun _ =>
      ⟨attrs, c1, c2, c3, hm, h1, h2, h3, hslice⟩⟩
    rw [hk] at hk2
    cases hk2

/-- Witness for C2: the general extractor properties instantiated on a
concrete document. -/
theorem claim_C2_extractor_witness :
    (parseAndFindReferences docC3 []).Sorted byLine ∧
    ∀ r ∈ parseAndFindReferences docC3 [],
      r.lineNumber = (docC3.take r.startIndex).count '\n' + 1 :=
  ⟨(claim_C2_extractor docC3 []).2.2.1,
   fun r hr => ((claim_C2_extractor docC3 []).2.2.2 r hr).1⟩

/-- C3: extracting `"![](a.png)\n\n![Cat](b.png)"` with no resolved-asset
index yields exactly the two expected records: line 1 with empty alt and path
`a.png`, and line 3 with alt `Cat` and path `b.png`, both with no source
image. -/
theorem claim_C3_concreteExtraction :
    (parseAndFindReferences docC3 []).map
        (fun r => (r.lineNumber, r.alt, r.path, r.status, r.originalImage))
      = [(1, [], "a.png".data, .toGenerate, none),
         (3, "Cat".data, "b.png".data, .toGenerate, none)] ∧
    (parseAndFindReferences docC3 []).length = 2 := by
  constructor <;> decide

/-- Counterexample to C4: on `mixedDoc` the extractor's output is not ordered
by ascending start offset (the inline-link record, matched by the first
scanning pass, precedes the tag record that starts earlier on the same
line). -/
theorem claim_C4_counterexample :
    ¬ (parseAndFindReferences mixedDoc []).Sorted
        (fun a b => a.startIndex ≤ b.startIndex) := by
  decide

theorem count_take_mono (doc : Str) (c : Char) {i j : Nat} (h : i ≤ j) :
    (doc.take i).count c ≤ (doc.take j).count c := by
  have heq : (doc.take j).take i = doc.take i := by
    rw [List.take_take, min_eq_left h]
  have hsub := List.take_sublist i (doc.take j)
  rw [heq] at hsub
  exact hsub.count_le c

theorem sublist_pair_or {α : Type} (a b : α) (l : List α) (ha : a ∈ l)
    (hb : b ∈ l) (hne : a ≠ b) : [a, b].Sublist l ∨ [b, a].Sublist l := by
  induction l with
  | nil => cases ha
  | cons x xs ih =>
    rcases List.mem_cons.mp ha with rfl | ha'
    · left
      have hb' : b ∈ xs := by
        rcases List.mem_cons.mp hb with rfl | h
        · exact absurd rfl hne
        · exact h
      exact List.cons_sublist_cons.mpr (List.singleton_sublist.mpr hb')
    · rcases List.mem_cons.mp hb with rfl | hb'
      · right
        exact List.cons_sublist_cons.mpr (List.singleton_sublist.mpr ha')
      · rcases ih ha' hb' with h | h
        · exact Or.inl (h.cons x)
        · exact Or.inr (h.cons x)

theorem eq_of_pair_sublists {α : Type} (l : List α) (hnd : l.Nodup) (a b : α)
    (h1 : [a, b].Sublist l) (h2 : [b, a].Sublist l) : a = b := by
  induction l with
  | nil => cases h1
  | cons x xs ih =>
    rcases List.nodup_cons.mp hnd with ⟨hx, hxs⟩
    cases h1 with
    | cons _ h1' =>
      cases h2 with
      | cons _ h2' => exact ih hxs h1' h2'
      | cons₂ _ h2' =>
        have hbxs : b ∈ xs := h1'.subset (by simp)
        exact absurd hbxs hx
    | cons₂ _ h1' =>
      cases h2 with
      | cons _ h2' =>
        have haxs : a ∈ xs := h2'.subset (by simp)
        exact absurd haxs hx
      | cons₂ _ h2' => rfl

/-- C4 as amended: the extractor's output is sorted by ascending line number
(the JS comparator), which implies ascending source position whenever no
single line of the document contains both an inline-link and a tag
placeholder; on such mixed lines the inline-link records precede the tag
records regardless of their start offsets. -/
theorem claim_C4_amended (doc : Str) (zipPaths : List Str)
    (hnomix : ∀ r1 ∈ parseAndFindReferences doc zipPaths,
      ∀ r2 ∈ parseAndFindReferences doc zipPaths,
      r1.lineNumber = r2.lineNumber → r1.skind = r2.skind) :
    List.Pairwise (fun a b => a.startIndex < b.startIndex)
      (parseAndFindReferences doc zipPaths) := by
  rw [List.pairwise_iff_forall_sublist]
  intro a b hab
  have hperm : (parseAndFindReferences doc zipPaths).Perm
      (mdRefs doc zipPaths ++ htmlRefs doc zipPaths) :=
    List.perm_insertionSort byLine _
  have hnd_orig := refs_nodup doc zipPaths
  have hnd : (parseAndFindReferences doc zipPaths).Nodup :=
    hperm.symm.nodup hnd_orig
  have hsorted : (parseAndFindReferences doc zipPaths).Sorted byLine :=
    List.sorted_insertionSort byLine _
  have hasorted : a ∈ parseAndFindReferences doc zipPaths := hab.subset (by simp)
  have hbsorted : b ∈ parseAndFindReferences doc zipPaths := hab.subset (by simp)
  have haorig : a ∈ mdRefs doc zipPaths ++ htmlRefs doc zipPaths :=
    hperm.subset hasorted
  have hborig : b ∈ mdRefs doc zipPaths ++ htmlRefs doc zipPaths :=
    hperm.subset hbsorted
  have hline : ∀ r ∈ mdRefs doc zipPaths ++ htmlRefs doc zipPaths,
      r.lineNumber = (doc.take r.startIndex).count '\n' + 1 := by
    intro r hr
    rcases List.mem_append.mp hr with h | h
    · exact (mem_mdRefs_spec doc zipPaths r h).2.1
    · exact (mem_htmlRefs_spec doc zipPaths r h).2.1
  have hle : byLine a b := (List.pairwise_iff_forall_sublist.mp hsorted) hab
  have hne : a ≠ b := by
    intro he
    subst he
    have hcnt := hab.count_le a
    have hone := List.nodup_iff_count_le_one.mp hnd a
    simp [List.count_cons] at hcnt
    omega
  by_cases hl : a.lineNumber = b.lineNumber
  · -- equal lines: same syntax kind, and stability localises the pair in one
    -- scanning pass, which is ordered by start offset
    have hkind := hnomix a hasorted b hbsorted hl
    have horig_pair : [a, b].Sublist (mdRefs doc zipPaths ++ htmlRefs doc zipPaths) := by
      rcases sublist_pair_or a b _ haorig hborig hne with h | h
      · exact h
      · exfalso
        have hba : [b, a].Sublist (parseAndFindReferences doc zipPaths) :=
          List.pair_sublist_insertionSort (by rw [byLine, hl]) h
        exact hne (eq_of_pair_sublists _ hnd a b hab hba)
    rcases List.sublist_append_iff.mp horig_pair with ⟨l1, l2, hsplit, hsub1, hsub2⟩
    cases l1 with
    | nil =>
      rw [List.nil_append] at hsplit
      subst hsplit
      exact (List.pairwise_iff_forall_sublist.mp
        (htmlRefs_pairwise doc zipPaths)) hsub2
    | cons x t =>
      rw [List.cons_append] at hsplit
      injection hsplit with hax htail
      subst hax
      cases t with
      | nil =>
        rw [List.nil_append] at htail
        subst htail
        have hamem : a ∈ mdRefs doc zipPaths := hsub1.subset (by simp)
        have hbmem : b ∈ htmlRefs doc zipPaths := hsub2.subset (by simp)
        have hka := (mem_mdRefs_spec doc zipPaths a hamem).1
        have hkb := (mem_htmlRefs_spec doc zipPaths b hbmem).1
        rw [hka, hkb] at hkind
        cases hkind
      | cons y t2 =>
        rw [List.cons_append] at htail
        injection htail with hby htail2
        subst hby
        obtain ⟨h1, h2⟩ := List.append_eq_nil.mp htail2.symm
        subst h1
        exact (List.pairwise_iff_forall_sublist.mp
          (mdRefs_pairwise doc zipPaths)) hsub1
  · -- distinct lines: the line comparator forces ascending start offsets
    have hltline : a.lineNumber < b.lineNumber := lt_of_le_of_ne hle hl
    by_contra hstart
    push_neg at hstart
    have hmono := count_take_mono doc '\n' hstart
    rw [hline a haorig, hline b hborig] at hltline
    omega

/-- Witness for the amended C4: a concrete document with no mixed line has
its records in strictly ascending start-offset order. -/
theorem claim_C4_amended_witness :
    List.Pairwise (fun a b => a.startIndex < b.startIndex)
      (parseAndFindReferences docC3 []) :=
  claim_C4_amended docC3 [] (by decide)

theorem segmentedOriginal_eq (doc : Str) :
    ∀ (infos : List ExportInfo) (c : Nat), SpansOk doc infos c →
      segmentedOriginal doc infos c = doc.drop c := by
  intro infos
  induction infos with
  | nil => intro c _; rfl
  | cons i r ih =>
    intro c hok
    obtain ⟨hc, hbound, hrest⟩ := hok
    rw [segmentedOriginal, ih _ hrest]
    have e1 : List.drop (i.startIndex - c) (doc.drop c) = doc.drop i.startIndex := by
      rw [List.drop_drop]
      congr 1
      omega
    have e2 : List.drop i.matchLength (doc.drop i.startIndex)
        = doc.drop (i.startIndex + i.matchLength) := by
      rw [List.drop_drop]
    calc (doc.drop c).take (i.startIndex - c) ++ sliceAt doc i.startIndex i.matchLength ++
          doc.drop (i.startIndex + i.matchLength)
        = (doc.drop c).take (i.startIndex - c) ++
            ((doc.drop i.startIndex).take i.matchLength ++
              List.drop i.matchLength (doc.drop i.startIndex)) := by
          rw [e2, sliceAt, List.append_assoc]
      _ = (doc.drop c).take (i.startIndex - c) ++ doc.drop i.startIndex := by
          rw [List.take_append_drop]
      _ = (doc.drop c).take (i.startIndex - c) ++ List.drop (i.startIndex - c) (doc.drop c) := by
          rw [e1]
      _ = doc.drop c := List.take_append_drop _ _

theorem rebuildLoop_eq_segmented (doc : Str) :
    ∀ (infos : List ExportInfo) (c : Nat), SpansOk doc infos c →
      rebuildLoop doc infos c = segmentedRebuild doc infos c := by
  intro infos
  induction infos with
  | nil => intro c _; rfl
  | cons i r ih =>
    intro c hok
    obtain ⟨hc, _, hrest⟩ := hok
    rw [rebuildLoop, segmentedRebuild, ih _ hrest]
    congr 1
    congr 1
    rw [List.drop_take]

theorem findFirstMatch_spec (m : Str → Option Nat) :
    ∀ (s : Str) (i len : Nat), findFirstMatch m s = some (i, len) →
      i ≤ s.length ∧ m (s.drop i) = some len ∧ ∀ j, j < i → m (s.drop j) = none := by
  intro s
  induction s with
  | nil =>
    intro i len h
    rw [findFirstMatch] at h
    cases hm : m [] with
    | none => rw [hm] at h; cases h
    | some l =>
      rw [hm] at h
      dsimp only [Option.map] at h
      simp only [Option.some.injEq, Prod.mk.injEq] at h
      obtain ⟨rfl, rfl⟩ := h
      exact ⟨Nat.le_refl 0, hm, fun j hj => absurd hj (Nat.not_lt_zero j)⟩
  | cons c cs ih =>
    intro i len h
    rw [findFirstMatch] at h
    cases hm : m (c :: cs) with
    | some l =>
      rw [hm] at h
      simp only [Option.some.injEq, Prod.mk.injEq] at h
      obtain ⟨rfl, rfl⟩ := h
      exact ⟨Nat.zero_le _, hm, fun j hj => absurd hj (Nat.not_lt_zero j)⟩
    | none =>
      rw [hm] at h
      cases hrec : findFirstMatch m cs with
      | none => rw [hrec] at h; cases h
      | some p =>
        rw [hrec] at h
        dsimp only [Option.map] at h
        simp only [Option.some.injEq, Prod.mk.injEq] at h
        obtain ⟨rfl, rfl⟩ := h
        obtain ⟨hle, hat, hbefore⟩ := ih p.1 p.2 (by rw [hrec])
        refine ⟨by simpa using Nat.succ_le_succ hle, hat, ?_⟩
        intro j hj
        cases j with
        | zero => exact hm
        | succ j' => exact hbefore j' (by omega)

theorem replaceFirst_frame (m : Str → Option Nat) (repl s : Str) (i len : Nat)
    (h : findFirstMatch m s = some (i, len)) (_hlen : i + len ≤ s.length) :
    replaceFirst m repl s = s.take i ++ repl ++ s.drop (i + len) ∧
    s = s.take i ++ sliceAt s i len ++ s.drop (i + len) ∧
    m (s.drop i) = some len ∧ ∀ j, j < i → m (s.drop j) = none := by
  obtain ⟨hle, hat, hbefore⟩ := findFirstMatch_spec m s i len h
  refine ⟨by rw [replaceFirst, h], ?_, hat, hbefore⟩
  have hrec : s.take i ++ sliceAt s i len ++ s.drop (i + len) = s := by
    rw [sliceAt, List.append_assoc,
      show List.drop (i + len) s = List.drop len (s.drop i) from (List.drop_drop len i s).symm,
      List.take_append_drop, List.take_append_drop]
  exact hrec.symm

/-- C8: the rebuild walks the placeholders in ascending source-position
order and replaces exactly each placeholder's span — the output равно the
segment decomposition in which every inter-span segment of the original text
appears verbatim and every span is replaced by its substitution; an
inline-link span becomes `![alt](relPath)`, and each `replace` of the tag
rewrite touches exactly the matched attribute segment, keeping every other
byte of the tag. -/
theorem claim_C8_rebuild (doc : Str) (infos : List ExportInfo)
    (hok : SpansOk doc (List.insertionSort byStartLe infos) 0) :
    (List.insertionSort byStartLe infos).Sorted byStartLe ∧
    rebuildMarkdown doc infos =
      segmentedRebuild doc (List.insertionSort byStartLe infos) 0 ∧
    doc = segmentedOriginal doc (List.insertionSort byStartLe infos) 0 ∧
    (∀ info : ExportInfo, info.skind = .markdown →
        replacementFor doc info = mdMarkup info.alt info.relPath) ∧
    (∀ (m : Str → Option Nat) (repl s : Str) (i len : Nat),
        findFirstMatch m s = some (i, len) → i + len ≤ s.length →
        replaceFirst m repl s = s.take i ++ repl ++ s.drop (i + len) ∧
        s = s.take i ++ sliceAt s i len ++ s.drop (i + len)) := by
  refine ⟨List.sorted_insertionSort byStartLe infos,
    rebuildLoop_eq_segmented doc _ 0 hok,
    (segmentedOriginal_eq doc _ 0 hok).symm, ?_, ?_⟩
  · intro info hk
    unfold replacementFor
    rw [hk]
  · intro m repl s i len h hlen
    obtain ⟨h1, h2, _, _⟩ := replaceFirst_frame m repl s i len h hlen
    exact ⟨h1, h2⟩

/-- Witness for C8: the rebuild equality on a concrete document with one
placeholder of each syntax. -/
theorem claim_C8_rebuild_witness :
    rebuildMarkdown docW [infoW1, infoW2] =
      segmentedRebuild docW (List.insertionSort byStartLe [infoW1, infoW2]) 0 ∧
    docW = segmentedOriginal docW (List.insertionSort byStartLe [infoW1, infoW2]) 0 :=
  ⟨(claim_C8_rebuild docW [infoW1, infoW2] (by decide)).2.1,
   (claim_C8_rebuild docW [infoW1, infoW2] (by decide)).2.2.1⟩

/-- Counterexample to C9: with maintain style enabled and no style reference
set, the user moves to the second placeholder and makes the session's first
selection there; the selection is recorded and resolves to an existing
image, yet no StyleReference is captured — contradicting "the first image
selected anywhere in the session becomes the StyleReference". -/
theorem claim_C9_counterexample :
    (sessionStep sessionW .next).currentReferenceIndex = some 1 ∧
    ((sessionStep (sessionStep sessionW .next) (.selectImage 0)).imageReferences.map
      (·.selectedIndex)) = [none, some 0] ∧
    styleCaptureImageFor refW2 0 = some "img-c".data ∧
    (sessionStep (sessionStep sessionW .next) (.selectImage 0)).styleReferenceImage
      = none := by
  refine ⟨by decide, by decide, by decide, by decide⟩

/-- C9 as amended: the style reference is captured from the first image
selected while the first placeholder is current (given maintain style on and
no reference yet); a selection made while any other placeholder is current
never captures one; and once set, no session event ever overwrites it. -/
theorem claim_C9_amended :
    (∀ (s : SessionState) (idx : Nat) (ref : ImageReferenceState) (img : Str),
        s.maintainStyle = true → s.currentReferenceIndex = some 0 →
        s.styleReferenceImage = none →
        s.imageReferences.get? 0 = some ref →
        styleCaptureImageFor ref idx = some img → img ≠ [] →
        (handleImageSelect idx s).styleReferenceImage = some img) ∧
    (∀ (s : SessionState) (idx ci : Nat),
        s.styleReferenceImage = none → s.currentReferenceIndex = some ci →
        ci ≠ 0 →
        (handleImageSelect idx s).styleReferenceImage = none) ∧
    (∀ (s : SessionState) (x : Str) (e : SessionEvent),
        s.styleReferenceImage = some x →
        (sessionStep s e).styleReferenceImage = some x) ∧
    (∀ (s : SessionState) (idx ci : Nat),
        s.maintainStyle = false → s.currentReferenceIndex = some ci →
        (handleImageSelect idx s).styleReferenceImage = s.styleReferenceImage) := by
  have hnext : ∀ s : SessionState,
      (handleNext s).styleReferenceImage = s.styleReferenceImage := by
    intro s
    unfold handleNext
    cases s.currentReferenceIndex <;> rfl
  have hprev : ∀ s : SessionState,
      (handlePrevious s).styleReferenceImage = s.styleReferenceImage := by
    intro s
    unfold handlePrevious
    cases s.currentReferenceIndex <;> rfl
  refine ⟨?_, ?_, ?_, ?_⟩
  · intro s idx ref img hms hci hsr href hcap hne
    have href' : s.imageReferences[0]? = some ref := by
      rw [← List.get?_eq_getElem?]
      exact href
    simp [handleImageSelect, hci, href', hcap, hms, hsr, hne, handleNext]
  · intro s idx ci hsr hci hne
    simp [handleImageSelect, hci, hne, hsr, handleNext]
  · intro s x e hsr
    cases e with
    | next => rw [sessionStep, hnext]; exact hsr
    | prev => rw [sessionStep, hprev]; exact hsr
    | selectImage idx =>
      rw [sessionStep]
      cases hci : s.currentReferenceIndex with
      | none =>
        unfold handleImageSelect
        rw [hci]
        exact hsr
      | some ci =>
        simp [handleImageSelect, hci, hsr, handleNext]
  · intro s idx ci hms hci
    simp [handleImageSelect, hci, hms, handleNext]

/-- Witness for the amended C9: in the concrete session, selecting on the
first placeholder captures its image; and once captured no later event
changes it. -/
theorem claim_C9_amended_witness :
    (handleImageSelect 0 sessionW).styleReferenceImage = some "img-a".data ∧
    (sessionStep { sessionW with styleReferenceImage := some "img-a".data }
      (.selectImage 1)).styleReferenceImage = some "img-a".data := by
  constructor
  · exact claim_C9_amended.1 sessionW 0 refW1 "img-a".data rfl rfl rfl (by decide)
      (by decide) (by decide)
  · exact claim_C9_amended.2.2.1 _ "img-a".data (.selectImage 1) rfl

end BananaMD
